import Mathlib

/-!
Verification development for the ai-finance-assistant repository.

This file gives a shallow embedding, in Lean 4, of the algorithmic core of
the repository: the RAG pipeline (text chunking in `src/rag/loader.py`,
the vector store in `src/rag/vector_store.py`, the retriever in
`src/rag/retriever.py`) and the deterministic financial math of the goal
agent (`src/agents/goal_agent.py`) and the portfolio agent
(`src/agents/portfolio_agent.py`).  Python floats are embedded as exact
rationals (ℚ), Python strings as Lean `String` / `List Char`, Python dicts
as insertion-ordered association lists, and fallible code as `Except`.
External boundaries (the OpenAI embedding client, the faiss index) are
embedded as explicit function parameters or as definitions modelled from
the specification of those boundaries.
-/

namespace FinAssist

section RatKernelEval

/- Core's rational arithmetic is `@[irreducible]`, which blocks the
`decide` front end (the kernel itself reduces it fine); restore
`semireducible` locally so concrete rational computations evaluate. -/
attribute [local semireducible] Rat.add Rat.mul Rat.sub Rat.inv Rat.ofScientific

/-- Embedding of Python `str.upper` (ASCII): upper-case every character. -/
def pyUpper (s : String) : String := ⟨s.data.map Char.toUpper⟩

/-- Embedding of Python `str.strip`: drop leading and trailing whitespace. -/
def pyStripChars (l : List Char) : List Char :=
  (((l.dropWhile Char.isWhitespace).reverse.dropWhile Char.isWhitespace).reverse)

/-- Embedding of Python `str.strip` on `String`. -/
def pyStrip (s : String) : String := ⟨pyStripChars s.data⟩

/-- Embedding of Python `round` on an exact rational: round half to even
(banker's rounding), which is what CPython's `round` implements. -/
def pyRound (q : ℚ) : ℤ :=
  let f : ℤ := Rat.floor q
  let r : ℚ := q - f
  if r < 1/2 then f
  else if 1/2 < r then f + 1
  else if 2 ∣ f then f else f + 1

/-- Python exceptions that the embedded code can raise, plus the
`IndexNotBuilt` error named by the specification's error taxonomy (§7);
the repository's code itself never constructs `indexNotBuilt`. -/
inductive PyErr where
  | attributeError : PyErr
  | indexError : PyErr
  | indexNotBuilt : PyErr
deriving DecidableEq, Repr

/-! ## Chunker (`src/rag/loader.py`, `chunk_text`)

Text is embedded as `List Char`; Python's slice `text[a:b]` (with
`0 ≤ a ≤ b ≤ len`, the only shape the terminating loop produces) is
`slice`. -/

/-- Slice `text[a:b]` for natural bounds: drop `a`, keep `b - a` characters. -/
def slice (l : List Char) (a b : ℕ) : List Char := (l.drop a).take (b - a)

/-- The `while start < text_length` loop of `chunk_text`, for a positive
step `chunk_size - overlap` (the terminating configuration). -/
def chunkLoop (text : List Char) (cs step : ℕ) (hstep : 0 < step) (start : ℕ) :
    List (List Char) :=
  if h : start < text.length then
    slice text start (min (start + cs) text.length) ::
      chunkLoop text cs step hstep (start + step)
  else []
termination_by text.length - start
decreasing_by omega

/-- The source's `chunk_text(text, chunk_size, overlap)` for a valid configuration
`overlap < chunk_size`: slide a window of width `chunk_size`, advancing by
`chunk_size - overlap`, starting at offset 0. -/
def chunk_text (text : List Char) (chunk_size overlap : ℕ) (h : overlap < chunk_size) :
    List (List Char) :=
  chunkLoop text chunk_size (chunk_size - overlap) (by omega) 0

/-- Python index normalization for slicing with an `Int` index. -/
def pyIdx (len : ℕ) (i : ℤ) : ℕ :=
  if i < 0 then (max 0 (i + len)).toNat else min i.toNat len

/-- Python `text[a:b]` with arbitrary `Int` bounds. -/
def pySlice (l : List Char) (a b : ℤ) : List Char :=
  let lo := pyIdx l.length a
  let hi := pyIdx l.length b
  (l.drop lo).take (hi - lo)

/-- Fuel-bounded embedding of the `chunk_text` loop with an arbitrary
(possibly zero or negative) integer step, exactly as the Python source
runs when `overlap ≥ chunk_size`: `none` means the loop has not finished
within `fuel` iterations. -/
def chunkLoopFuel (text : List Char) (cs : ℕ) (step start : ℤ) :
    ℕ → Option (List (List Char))
  | 0 => none
  | fuel + 1 =>
    if start < (text.length : ℤ) then
      match chunkLoopFuel text cs step (start + step) fuel with
      | none => none
      | some rest => some (pySlice text start (min (start + cs) (text.length : ℤ)) :: rest)
    else some []

/-- Embedding of `chunk_text` as written in the source, with no guard on the
parameters, run on a fuel budget. -/
def chunk_text_fuel (text : List Char) (chunk_size overlap : ℕ) (fuel : ℕ) :
    Option (List (List Char)) :=
  chunkLoopFuel text chunk_size ((chunk_size : ℤ) - (overlap : ℤ)) 0 fuel

/-- Number of window starts produced over `len` characters with step
`step`: `⌈len / step⌉`. -/
def numChunks (len step : ℕ) : ℕ := (len + step - 1) / step

/-! ## Vector store (`src/rag/vector_store.py`)

Embedding vectors are exact rational vectors; the OpenAI embedding client
is an injectable function parameter (the spec's Embedding Client
boundary, §6: one vector per input string, order preserved). -/

/-- An embedding vector. -/
abbrev Vec := List ℚ

/-- Squared L2 distance between two vectors (faiss `IndexFlatL2` compares
squared Euclidean distances; the induced order is that of L2 distance). -/
def l2sq (a b : Vec) : ℚ := (List.zipWith (fun x y => (x - y) ^ 2) a b).sum

/-- The state of `VectorStore`: `index` is `none` until `build` succeeds
(Python `self.index = None`), and the stored vectors once built;
`text_chunks` is the parallel list of chunk texts. -/
structure VectorStore where
  index : Option (List Vec)
  text_chunks : List String
deriving Repr

/-- State after `VectorStore.__init__`: no index, no chunks. -/
def VectorStore.init : VectorStore := { index := none, text_chunks := [] }

/-- Embedding of `VectorStore.build`: embed all texts, read the dimension off
`embeddings[0]` (an `IndexError` when there are no embeddings), then
store vectors and texts.  `embedFn` is the injected embedding client. -/
def VectorStore.build (embedFn : List String → List Vec) (vs : VectorStore)
    (texts : List String) : Except PyErr VectorStore :=
  match embedFn texts with
  | [] => .error .indexError
  | e0 :: rest => .ok { index := some (e0 :: rest), text_chunks := texts }

/-- Comparison used to order candidate indices: by distance to the query,
ties by insertion index. -/
def nnLe (dist : ℕ → ℚ) (i j : ℕ) : Bool :=
  decide (dist i < dist j ∨ (dist i = dist j ∧ i ≤ j))

/-- Modelled from the spec: the index selection of faiss
`IndexFlatL2.search`, which is not part of this repository.  Spec §4.2:
"`search` computes a distance (Euclidean/L2, lower = more similar)
between the query vector and every stored vector, returns the `top_k`
chunk texts in ascending distance order (nearest first), ties broken by
original insertion order", with exact linear-scan semantics.  Returns the
first `top_k` stored indices in that order. -/
def nnIndices (vecs : List Vec) (q : Vec) (top_k : ℕ) : List ℕ :=
  (((List.range vecs.length).mergeSort (nnLe (fun i => l2sq q (vecs.getD i [])))).take top_k)

/-- Modelled from the spec: the index row faiss returns for one query —
the selected indices, padded with `-1` up to `top_k` entries when fewer
than `top_k` vectors are stored (faiss's documented padding, which the
repository's `search` filters out with `if i != -1`). -/
def faissSearchIdx (vecs : List Vec) (q : Vec) (top_k : ℕ) : List ℤ :=
  (nnIndices vecs q top_k).map Int.ofNat
    ++ List.replicate (top_k - min top_k vecs.length) (-1)

/-- Embedding of `VectorStore.search`: embed the query, search the faiss index
(an `AttributeError` on `None.search` when the index was never built),
keep indices `≠ -1`, and map them to chunk texts. -/
def VectorStore.search (embedFn : List String → List Vec) (vs : VectorStore)
    (query : String) (top_k : ℕ) : Except PyErr (List String) :=
  let query_embedding := (embedFn [query]).getD 0 []
  match vs.index with
  | none => .error .attributeError
  | some vecs =>
    .ok (((faissSearchIdx vecs query_embedding top_k).filter (fun i => i ≠ -1)).map
      (fun i => vs.text_chunks.getD i.toNat ""))

/-! ## Retriever (`src/rag/retriever.py`)

`Retriever.__init__` loads documents (the Document Source boundary,
embedded as the list of document texts), chunks each with the default
parameters `chunk_size = 500, overlap = 50`, and builds the vector store
over the concatenated chunks. -/

/-- The source's `chunk_text` at its default parameters, producing `String` chunks. -/
def chunk_text_default (s : String) : List String :=
  (chunk_text s.data 500 50 (by omega)).map (fun l => ⟨l⟩)

/-- Embedding of `Retriever._build_Index` / `Retriever.__init__`: chunk every document
and build the store; any exception of `build` propagates out of the
constructor. -/
def retriever_build (embedFn : List String → List Vec) (docs : List String) :
    Except PyErr VectorStore :=
  VectorStore.build embedFn VectorStore.init
    (docs.foldl (fun acc d => acc ++ chunk_text_default d) [])

/-- Embedding of `Retriever.retrieve`: delegate to the store's search. -/
def retriever_retrieve (embedFn : List String → List Vec) (vs : VectorStore)
    (query : String) (top_k : ℕ) : Except PyErr (List String) :=
  vs.search embedFn query top_k

/-! ## Goal solver (`src/agents/goal_agent.py`)

`GoalAgent._compute_monthly_contribution` on validated, normalized input:
all floats are embedded as exact rationals. -/

/-- The result dict of `GoalAgent._compute_monthly_contribution`
(the echoed input fields are omitted; `months` is the Python
`max(1, int(round(years * 12)))`, an integer ≥ 1). -/
structure GoalResult where
  months : ℕ
  monthly_rate : ℚ
  fv_of_current_savings : ℚ
  fv_needed : ℚ
  monthly_contribution : ℚ
deriving Repr

/-- Embedding of `GoalAgent._compute_monthly_contribution`: future-value math for
end-of-month contributions, translated line by line from the source. -/
def compute_monthly_contribution (target_amount years annual_return_decimal
    current_savings : ℚ) : GoalResult :=
  let months : ℕ := (max 1 (pyRound (years * 12))).toNat
  let monthly_rate : ℚ := annual_return_decimal / 12
  let fv_of_current_savings : ℚ := current_savings * (1 + monthly_rate) ^ months
  let fv_needed : ℚ := target_amount - fv_of_current_savings
  let monthly_contribution : ℚ :=
    if fv_needed ≤ 0 then 0
    else if monthly_rate = 0 then fv_needed / (months : ℚ)
    else
      let growth_factor := (1 + monthly_rate) ^ months
      let annuity_factor := (growth_factor - 1) / monthly_rate
      fv_needed / annuity_factor
  { months := months
    monthly_rate := monthly_rate
    fv_of_current_savings := fv_of_current_savings
    fv_needed := fv_needed
    monthly_contribution := max 0 monthly_contribution }

/-! ## Portfolio agent (`src/agents/portfolio_agent.py`)

A parsed JSON object is an insertion-ordered association list of
`String × PyVal`; Python dicts with string keys keep insertion order, so
the sanitized holdings are also an insertion-ordered association list. -/

/-- A JSON value as produced by `json.loads` for a dict entry. -/
inductive PyVal where
  | num : ℚ → PyVal
  | str : String → PyVal
  | boolean : Bool → PyVal
  | null : PyVal
deriving DecidableEq, Repr

/-- CPython `float(string)` restricted to unsigned decimal-integer
literals (the only string shapes the repository's data and tests use):
a non-empty all-digit string parses to its value, anything else fails. -/
def pyFloatOfString (s : String) : Option ℚ :=
  if s.data ≠ [] ∧ s.data.all Char.isDigit then
    some ((s.data.foldl (fun a c => a * 10 + (c.toNat - 48)) 0 : ℕ) : ℚ)
  else none

/-- CPython `float(v)` on a JSON value: numbers pass through, numeric
strings parse, booleans coerce to 0/1, `None` raises `TypeError`
(embedded as `none`). -/
def pyFloat : PyVal → Option ℚ
  | .num q => some q
  | .str s => pyFloatOfString s
  | .boolean b => some (if b then 1 else 0)
  | .null => none

/-- Embedding of `str(k).upper().strip()`, the ticker normalization of
`_sanitize_holdings`. -/
def normTicker (s : String) : String := pyStrip (pyUpper s)

/-- Embedding of `clean[ticker] = clean.get(ticker, 0.0) + value` on an
insertion-ordered dict: add to an existing entry in place, else append. -/
def addHolding (acc : List (String × ℚ)) (t : String) (v : ℚ) : List (String × ℚ) :=
  match acc with
  | [] => [(t, v)]
  | (k, w) :: rest => if k = t then (k, w + v) :: rest else (k, w) :: addHolding rest t v

/-- One iteration of the `_sanitize_holdings` loop. -/
def sanitizeStep (acc : List (String × ℚ)) (kv : String × PyVal) : List (String × ℚ) :=
  match pyFloat kv.2 with
  | none => acc
  | some value =>
    if value ≤ 0 then acc
    else
      let ticker := normTicker kv.1
      if ticker = "" then acc else addHolding acc ticker value

/-- Embedding of `PortfolioAgent._sanitize_holdings`: normalize tickers, coerce
numeric values, drop invalid/non-positive entries, sum duplicates. -/
def sanitize_holdings (raw : List (String × PyVal)) : List (String × ℚ) :=
  raw.foldl sanitizeStep []

/-- The portfolio total `sum(holdings.values())`. -/
def totalOf (holdings : List (String × ℚ)) : ℚ := (holdings.map (fun p => p.2)).sum

/-- The weights dict `{k: v / total for k, v in holdings.items()}`,
kept in insertion order. -/
def weightsOf (holdings : List (String × ℚ)) : List ℚ :=
  holdings.map (fun p => p.2 / totalOf holdings)

/-- The concentration index `hhi = sum(w ** 2 for w in weights.values())`. -/
def hhiOf (holdings : List (String × ℚ)) : ℚ := ((weightsOf holdings).map (fun w => w ^ 2)).sum

/-- Python `max` over the weight values (`0.0` when there are none,
matching the source's `if weights else 0.0` guard). -/
def topWeightOf (holdings : List (String × ℚ)) : ℚ :=
  match weightsOf holdings with
  | [] => 0
  | w :: ws => ws.foldl max w

/-- The `STOCK_KEYWORDS` set from the source. -/
def STOCK_KEYWORDS : List String :=
  ["VTI", "VOO", "VUG", "QQQ", "VXUS", "VEA", "VWO", "SPY", "TSLA", "AAPL",
   "MSFT", "AMZN", "GOOGL", "META", "NVDA", "JPM", "JNJ", "UNH", "HD", "PG",
   "DIS", "MA", "BAC", "V", "ADBE", "CMCSA", "NFLX"]

/-- The `BOND_KEYWORDS` set from the source. -/
def BOND_KEYWORDS : List String :=
  ["BND", "BNDX", "AGG", "TLT", "IEF", "SHY", "MUB", "LQD", "HYG", "JNK"]

/-- The stock bucket value: the `t_up in STOCK_KEYWORDS` branch of the
asset-mix loop (`t_up = t.upper().strip()`). -/
def stockValueOf (holdings : List (String × ℚ)) : ℚ :=
  ((holdings.filter (fun p => normTicker p.1 ∈ STOCK_KEYWORDS)).map (fun p => p.2)).sum

/-- The source's `stock_pct = stock_value / total * 100 if total else 0.0`. -/
def stockPctOf (holdings : List (String × ℚ)) : ℚ :=
  if totalOf holdings = 0 then 0 else stockValueOf holdings / totalOf holdings * 100

/-- The risk label of `_compute_metrics`. -/
inductive Risk where
  | low : Risk
  | medium : Risk
  | high : Risk
deriving DecidableEq, Repr

/-- The source's severity table (low 0, medium 1, high 2). -/
def severity : Risk → ℕ
  | .low => 0
  | .medium => 1
  | .high => 2

/-- The concentration-band assignment of `_compute_metrics`
(`n`, `top_weight`, `hhi` as in the source). -/
def concentrationRisk (n : ℕ) (top_weight hhi : ℚ) : Risk :=
  if n < 3 ∨ top_weight > 0.60 ∨ hhi > 0.35 then .high
  else if top_weight > 0.40 ∨ hhi > 0.25 ∨ n < 5 then .medium
  else .low

/-- The asset-mix overlay of `_compute_metrics`. -/
def assetRisk (stock_pct : ℚ) : Risk :=
  if stock_pct ≥ 80 then .high
  else if stock_pct ≥ 50 then .medium
  else .low

/-- The final risk label computed by `PortfolioAgent._compute_metrics`:
the concentration band, overridden by the asset-mix band when the latter
is strictly more severe (`if severity[asset_risk] > severity[risk]`). -/
def computeRisk (holdings : List (String × ℚ)) : Risk :=
  let n := holdings.length
  let top_weight := topWeightOf holdings
  let hhi := hhiOf holdings
  let risk := concentrationRisk n top_weight hhi
  let asset_risk := assetRisk (stockPctOf holdings)
  if severity asset_risk > severity risk then asset_risk else risk

/-- The more severe of the two labels under the order low < medium < high
(the specification's wording for the final risk). -/
def moreSevere (a b : Risk) : Risk := if severity b > severity a then b else a

/-! ## Disclaimer handling of the agents' answer strings -/

/-- Number of positions at which `pattern` occurs in `text`. -/
def countOccurrences (pattern text : List Char) : ℕ :=
  ((List.range (text.length + 1)).filter (fun i => pattern.isPrefixOf (text.drop i))).length

/-- Number of case-insensitive occurrences of `"disclaimer:"` in `s`
(the substring the spec's disclaimer invariant counts, and the one the
agents probe with `"disclaimer:" in answer.lower()`). -/
def disclaimerCount (s : String) : ℕ :=
  countOccurrences ("disclaimer:".data) (s.data.map Char.toLower)

/-- The `DISCLAIMER` constant of `portfolio_agent.py`. -/
def PORTFOLIO_DISCLAIMER : String :=
  "Educational only — not financial advice. May not reflect real-world constraints."

/-- The `DISCLAIMER` constant of `goal_agent.py` (a triple-quoted string:
it keeps its newlines and indentation). -/
def GOAL_DISCLAIMER : String :=
  "\n    Educational only — not financial advice. Returns a simplified estimate.\n    This assumes constant return and doesn’t include inflation/fees/taxes.\n    "

/-- The malformed-JSON message of `PortfolioAgent.run`. -/
def portfolioParseErrorMessage : String :=
  "Please provide JSON like \x7b\"AAPL\": 5000, \"VTI\": 8000\x7d."

/-- Embedding of `PortfolioAgent._error_response`: the answer is the message, verbatim
(no disclaimer is appended on this path). -/
def portfolio_error_answer (message : String) : String := message

/-- Embedding of `GoalAgent._error_response`: append a disclaimer line
unless the message already contains `"disclaimer:"` case-insensitively. -/
def goal_error_answer (message : String) : String :=
  if 0 < disclaimerCount message then message
  else message ++ "\n\nDisclaimer: " ++ GOAL_DISCLAIMER

/-- Embedding of `FinanceQAAgent._with_disclaimer`, same guard as the goal agent with
the finance-QA `DISCLAIMER` constant. -/
def FINANCE_QA_DISCLAIMER : String :=
  "Educational only — not financial advice. Consider a licensed financial professional for personalized guidance."

def finance_qa_with_disclaimer (message : String) : String :=
  if 0 < disclaimerCount message then message
  else message ++ "\n\nDisclaimer: " ++ FINANCE_QA_DISCLAIMER

/-! ## Specification-side characterization of sanitization -/

/-- Dict lookup with default 0 (`clean.get(t, 0.0)`) on an association
list. -/
def amountOf (holdings : List (String × ℚ)) (t : String) : ℚ :=
  match holdings with
  | [] => 0
  | (k, v) :: rest => if k = t then v else amountOf rest t

/-- The amount a single raw entry contributes to normalized ticker `t`
according to the spec's sanitization rules: its coerced value when the
coercion succeeds, the value is positive and the normalized key is `t`;
otherwise 0. -/
def validAmount (kv : String × PyVal) (t : String) : ℚ :=
  match pyFloat kv.2 with
  | none => 0
  | some v => if 0 < v ∧ normTicker kv.1 = t then v else 0

/-- Total valid contribution of a raw input to normalized ticker `t`. -/
def specSum (raw : List (String × PyVal)) (t : String) : ℚ :=
  (raw.map (fun kv => validAmount kv t)).sum

/-- The key shape produced by ticker normalization: non-empty,
upper-case (every character fixed by `toUpper`) and trimmed (no leading
or trailing whitespace). -/
def goodKey (k : String) : Prop :=
  k ≠ "" ∧ (∀ c ∈ k.data, c.toUpper = c) ∧
    (∀ c, k.data.head? = some c → c.isWhitespace = false) ∧
    (∀ c, k.data.getLast? = some c → c.isWhitespace = false)

/-- The per-entry invariant sanitization maintains. -/
def holdingsInv (acc : List (String × ℚ)) : Prop :=
  ∀ kv ∈ acc, goodKey kv.1 ∧ 0 < kv.2

/-! ## Theorems -/

/-! ## Python primitives -/

/-- Round-trip `(Char.ofNat n).toNat = n` for code points below the surrogate range. -/
theorem charOfNat_toNat (n : Nat) (h : n < 55296) : (Char.ofNat n).toNat = n := by
  have hv : n.isValidChar := Or.inl h
  simp [Char.ofNat, hv, Char.ofNatAux, Char.toNat, UInt32.toNat, BitVec.toNat_ofNatLt]

/-- Unfolding of core `Char.toUpper` (the embedding of Python `str.upper`
on ASCII characters, which is what CPython does on ASCII tickers). -/
theorem charToUpper_def (c : Char) :
    c.toUpper = if c.toNat ≥ 97 ∧ c.toNat ≤ 122 then Char.ofNat (c.toNat - 32) else c := rfl

/-- An upper-cased character is never an ASCII lowercase letter. -/
theorem charToUpper_notLower (c : Char) :
    ¬(97 ≤ c.toUpper.toNat ∧ c.toUpper.toNat ≤ 122) := by
  rw [charToUpper_def]
  by_cases h : c.toNat ≥ 97 ∧ c.toNat ≤ 122
  · rw [if_pos h, charOfNat_toNat _ (by omega)]
    omega
  · rw [if_neg h]
    omega

/-- Idempotence of `Char.toUpper`. -/
theorem charToUpper_idem (c : Char) : c.toUpper.toUpper = c.toUpper := by
  conv_lhs => rw [charToUpper_def]
  rw [if_neg (charToUpper_notLower c)]

theorem numChunks_zero (step : ℕ) : numChunks 0 step = 0 := by
  unfold numChunks
  rcases Nat.eq_zero_or_pos step with h | h
  · subst h; rfl
  · exact Nat.div_eq_of_lt (by omega)

theorem numChunks_pos (len step : ℕ) (hs : 0 < step) (hl : 0 < len) :
    0 < numChunks len step := by
  unfold numChunks
  exact Nat.div_pos (by omega) hs

/-- One step of the ceiling-division recurrence behind the chunk count. -/
theorem numChunks_succ (len step : ℕ) (hs : 0 < step) (hl : 0 < len) :
    numChunks len step = numChunks (len - step) step + 1 := by
  unfold numChunks
  rcases le_or_lt step len with hle | hlt
  · have he : len + step - 1 = (len - step + step - 1) + step := by omega
    rw [he, Nat.add_div_right _ hs]
  · have h0 : len - step = 0 := by omega
    rw [h0]
    have hr : (0 + step - 1) / step = 0 := Nat.div_eq_of_lt (by omega)
    rw [hr]
    have h1 : (len + step - 1) / step = 1 := by
      apply Nat.div_eq_of_lt_le <;> omega
    omega

/-- Coverage: `numChunks len step` windows of stride `step` cover `len`. -/
theorem numChunks_mul_ge (len step : ℕ) (hs : 0 < step) :
    len ≤ numChunks len step * step := by
  unfold numChunks
  rcases Nat.eq_zero_or_pos len with h0 | hl
  · simp [h0]
  · have key : len + step - 1 < (len + step - 1) / step * step + step := by
      have h2 := (Nat.div_lt_iff_lt_mul hs).mp
        (Nat.lt_succ_self ((len + step - 1) / step))
      rw [Nat.succ_mul] at h2
      exact h2
    omega

/-- The chunk loop, from any start offset, produces exactly the windows
at offsets `start, start + step, start + 2*step, …` below `len`. -/
theorem chunkLoop_eq (text : List Char) (cs step : ℕ) (hstep : 0 < step) (start : ℕ) :
    chunkLoop text cs step hstep start =
      (List.range' start (numChunks (text.length - start) step) step).map
        (fun s => slice text s (min (s + cs) text.length)) := by
  rw [chunkLoop]
  split
  case isTrue h =>
    have hn : numChunks (text.length - start) step
        = numChunks (text.length - (start + step)) step + 1 := by
      have := numChunks_succ (text.length - start) step hstep (by omega)
      have he : text.length - start - step = text.length - (start + step) := by omega
      rw [he] at this
      exact this
    rw [hn, List.range'_succ, List.map_cons]
    rw [chunkLoop_eq text cs step hstep (start + step)]
  case isFalse h =>
    have h0 : text.length - start = 0 := by omega
    rw [h0, numChunks_zero]
    simp
termination_by text.length - start
decreasing_by omega

/-- Correctness of `chunk_text` on a valid configuration: the
substrings `text[s : min (s + chunk_size) len]` for
`s = 0, step, 2*step, …` with `step = chunk_size - overlap`, stopping
once `s ≥ len`. -/
theorem chunk_text_eq_spec (text : List Char) (chunk_size overlap : ℕ)
    (h : overlap < chunk_size) :
    chunk_text text chunk_size overlap h =
      (List.range' 0 (numChunks text.length (chunk_size - overlap)) (chunk_size - overlap)).map
        (fun s => slice text s (min (s + chunk_size) text.length)) := by
  rw [chunk_text, chunkLoop_eq]
  simp

/-- For `overlap ≥ chunk_size` and non-empty text, the unguarded loop of
`chunk_text` never advances past the first offset: it does not finish
within any fuel budget. -/
theorem chunkLoopFuel_none (text : List Char) (cs : ℕ) (step : ℤ)
    (hs : step ≤ 0) (hl : 0 < text.length) :
    ∀ (fuel : ℕ) (start : ℤ), start ≤ 0 → chunkLoopFuel text cs step start fuel = none := by
  intro fuel
  induction fuel with
  | zero => intro start _; rfl
  | succ n ih =>
    intro start hstart
    rw [chunkLoopFuel]
    rw [if_pos (by exact_mod_cast lt_of_le_of_lt hstart (by exact_mod_cast hl))]
    rw [ih (start + step) (by omega)]

/-! ### Search lemmas -/

theorem nnLe_trans (dist : ℕ → ℚ) (a b c : ℕ) :
    nnLe dist a b = true → nnLe dist b c = true → nnLe dist a c = true := by
  simp only [nnLe, decide_eq_true_eq]
  rintro (hab | ⟨hab, hab2⟩) (hbc | ⟨hbc, hbc2⟩)
  · exact Or.inl (lt_trans hab hbc)
  · exact Or.inl (hbc ▸ hab)
  · exact Or.inl (hab ▸ hbc)
  · exact Or.inr ⟨hab.trans hbc, hab2.trans hbc2⟩

theorem nnLe_total (dist : ℕ → ℚ) (a b : ℕ) :
    (nnLe dist a b || nnLe dist b a) = true := by
  simp only [nnLe, Bool.or_eq_true, decide_eq_true_eq]
  rcases lt_trichotomy (dist a) (dist b) with h | h | h
  · exact Or.inl (Or.inl h)
  · rcases Nat.le_total a b with hab | hab
    · exact Or.inl (Or.inr ⟨h, hab⟩)
    · exact Or.inr (Or.inr ⟨h.symm, hab⟩)
  · exact Or.inr (Or.inl h)

/-- Reading every position of a list via `getD` reproduces the list. -/
theorem map_getD_range {α : Type _} (l : List α) (d : α) :
    (List.range l.length).map (fun i => l.getD i d) = l := by
  apply List.ext_getElem
  · simp
  · intro i h1 h2
    simp only [List.getElem_map, List.getElem_range]
    rw [List.getD_eq_getElem l d h2]

/-- On a built store, `search` succeeds and returns exactly the chunk
texts at the selected nearest-neighbor indices (the `-1` padding is
filtered away). -/
theorem search_built (embedFn : List String → List Vec) (vs : VectorStore)
    (vecs : List Vec) (query : String) (top_k : ℕ) (hidx : vs.index = some vecs) :
    vs.search embedFn query top_k =
      .ok ((nnIndices vecs ((embedFn [query]).getD 0 []) top_k).map
        (fun i => vs.text_chunks.getD i "")) := by
  simp only [VectorStore.search, hidx]
  congr 1
  unfold faissSearchIdx
  rw [List.filter_append]
  have h1 : ((nnIndices vecs ((embedFn [query]).getD 0 []) top_k).map
      Int.ofNat).filter (fun i => i ≠ -1)
      = (nnIndices vecs ((embedFn [query]).getD 0 []) top_k).map Int.ofNat := by
    apply List.filter_eq_self.mpr
    intro x hx
    obtain ⟨i, _, rfl⟩ := List.mem_map.mp hx
    simp only [ne_eq, Int.ofNat_eq_natCast, decide_eq_true_eq]
    omega
  have h2 : (List.replicate (top_k - min top_k vecs.length) (-1 : ℤ)).filter
      (fun i => i ≠ -1) = [] := by
    rw [List.filter_replicate]
    simp
  rw [h1, h2, List.append_nil, List.map_map]
  simp [Function.comp, Int.ofNat_eq_natCast]

/-- The selected indices: there are exactly `min top_k N` of them. -/
theorem nnIndices_length (vecs : List Vec) (q : Vec) (top_k : ℕ) :
    (nnIndices vecs q top_k).length = min top_k vecs.length := by
  rw [nnIndices, List.length_take,
    (List.mergeSort_perm (List.range vecs.length) _).length_eq, List.length_range]

/-- The selected indices are strictly sorted by (distance, insertion
index): ascending distance, ties broken by the smaller stored index. -/
theorem nnIndices_sorted (vecs : List Vec) (q : Vec) (top_k : ℕ) :
    (nnIndices vecs q top_k).Pairwise (fun i j =>
      l2sq q (vecs.getD i []) < l2sq q (vecs.getD j []) ∨
        (l2sq q (vecs.getD i []) = l2sq q (vecs.getD j []) ∧ i < j)) := by
  have hsorted := List.sorted_mergeSort
    (nnLe_trans (fun i => l2sq q (vecs.getD i [])))
    (nnLe_total (fun i => l2sq q (vecs.getD i [])))
    (List.range vecs.length)
  have hnodup : ((List.range vecs.length).mergeSort
      (nnLe (fun i => l2sq q (vecs.getD i [])))).Nodup :=
    ((List.mergeSort_perm _ _).nodup_iff).mpr (List.nodup_range _)
  have hcomb := hsorted.and hnodup
  apply List.Pairwise.sublist (List.take_sublist _ _)
  apply hcomb.imp
  intro a b hab
  obtain ⟨hle, hne⟩ := hab
  simp only [nnLe, decide_eq_true_eq] at hle
  rcases hle with h | ⟨h1, h2⟩
  · exact Or.inl h
  · exact Or.inr ⟨h1, lt_of_le_of_ne h2 hne⟩

/-- Every selected index addresses a stored vector. -/
theorem nnIndices_mem (vecs : List Vec) (q : Vec) (top_k : ℕ) :
    ∀ i ∈ nnIndices vecs q top_k, i < vecs.length := by
  intro i hi
  have h1 : i ∈ (List.range vecs.length).mergeSort
      (nnLe (fun j => l2sq q (vecs.getD j []))) :=
    (List.take_sublist _ _).mem hi
  have h2 : i ∈ List.range vecs.length := (List.mergeSort_perm _ _).mem_iff.mp h1
  exact List.mem_range.mp h2

/-- When `top_k` is at least the number of stored vectors, every stored
index is selected (in sorted order). -/
theorem nnIndices_all (vecs : List Vec) (q : Vec) (top_k : ℕ)
    (h : vecs.length ≤ top_k) :
    (nnIndices vecs q top_k).Perm (List.range vecs.length) := by
  rw [nnIndices, List.take_of_length_le]
  · exact List.mergeSort_perm _ _
  · rw [(List.mergeSort_perm _ _).length_eq, List.length_range]
    exact h

theorem goal_months_pos (target years annual pv : ℚ) :
    1 ≤ (compute_monthly_contribution target years annual pv).months := by
  unfold compute_monthly_contribution
  simp only
  omega

/-! ### String-normalization lemmas -/

theorem head?_dropWhile_not {α : Type _} (p : α → Bool) (l : List α) :
    ∀ c, (l.dropWhile p).head? = some c → p c = false := by
  induction l with
  | nil => intro c hc; simp [List.dropWhile] at hc
  | cons a t ih =>
    intro c hc
    rw [List.dropWhile_cons] at hc
    by_cases h : p a
    · rw [if_pos h] at hc
      exact ih c hc
    · rw [if_neg h] at hc
      simp only [List.head?_cons, Option.some.injEq] at hc
      subst hc
      exact Bool.eq_false_iff.mpr h

theorem getLast?_dropWhile {α : Type _} (p : α → Bool) (l : List α)
    (h : l.dropWhile p ≠ []) : (l.dropWhile p).getLast? = l.getLast? := by
  induction l with
  | nil => simp [List.dropWhile] at h
  | cons a t ih =>
    rw [List.dropWhile_cons] at h ⊢
    by_cases hp : p a
    · rw [if_pos hp] at h ⊢
      cases ht : t with
      | nil => subst ht; simp [List.dropWhile] at h
      | cons b t2 =>
        rw [← ht, ih h, ht, List.getLast?_cons_cons]
    · rw [if_neg hp]

theorem mem_pyStripChars (l : List Char) (c : Char) (h : c ∈ pyStripChars l) : c ∈ l := by
  unfold pyStripChars at h
  rw [List.mem_reverse] at h
  have h2 := (List.dropWhile_sublist _).mem h
  rw [List.mem_reverse] at h2
  exact (List.dropWhile_sublist _).mem h2

theorem pyStripChars_head_not_ws (l : List Char) (c : Char)
    (h : (pyStripChars l).head? = some c) : c.isWhitespace = false := by
  unfold pyStripChars at h
  rw [List.head?_reverse] at h
  have hne : (((l.dropWhile Char.isWhitespace).reverse).dropWhile Char.isWhitespace) ≠ [] := by
    intro h0
    rw [h0] at h
    simp at h
  rw [getLast?_dropWhile _ _ hne, List.getLast?_reverse] at h
  exact head?_dropWhile_not _ _ c h

theorem pyStripChars_getLast_not_ws (l : List Char) (c : Char)
    (h : (pyStripChars l).getLast? = some c) : c.isWhitespace = false := by
  unfold pyStripChars at h
  rw [List.getLast?_reverse] at h
  exact head?_dropWhile_not _ _ c h

/-- A non-empty normalized ticker satisfies the key invariant. -/
theorem normTicker_goodKey (s : String) (h : normTicker s ≠ "") :
    goodKey (normTicker s) := by
  refine ⟨h, ?_, ?_, ?_⟩
  · intro c hc
    have h1 : c ∈ pyStripChars ((pyUpper s).data) := hc
    have h2 := mem_pyStripChars _ _ h1
    have h3 : c ∈ s.data.map Char.toUpper := h2
    obtain ⟨d, _, rfl⟩ := List.mem_map.mp h3
    exact charToUpper_idem d
  · intro c hc
    exact pyStripChars_head_not_ws ((pyUpper s).data) c hc
  · intro c hc
    exact pyStripChars_getLast_not_ws ((pyUpper s).data) c hc

/-! ### Sanitization lemmas -/

theorem holdingsInv_addHolding (acc : List (String × ℚ)) (t : String) (v : ℚ)
    (hacc : holdingsInv acc) (ht : goodKey t) (hv : 0 < v) :
    holdingsInv (addHolding acc t v) := by
  induction acc with
  | nil =>
    intro kv hkv
    simp only [addHolding, List.mem_singleton] at hkv
    subst hkv
    exact ⟨ht, hv⟩
  | cons p rest ih =>
    obtain ⟨k, w⟩ := p
    intro kv hkv
    rw [addHolding] at hkv
    by_cases hk : k = t
    · rw [if_pos hk] at hkv
      rcases List.mem_cons.mp hkv with hkv | hkv
      · subst hkv
        have hw := hacc (k, w) (List.mem_cons_self _ _)
        exact ⟨hw.1, by have := hw.2; dsimp only at this ⊢; linarith⟩
      · exact hacc kv (List.mem_cons_of_mem _ hkv)
    · rw [if_neg hk] at hkv
      rcases List.mem_cons.mp hkv with hkv | hkv
      · subst hkv
        exact hacc (k, w) (List.mem_cons_self _ _)
      · exact ih (fun q hq => hacc q (List.mem_cons_of_mem _ hq)) kv hkv

theorem holdingsInv_sanitizeStep (acc : List (String × ℚ)) (kv : String × PyVal)
    (hacc : holdingsInv acc) : holdingsInv (sanitizeStep acc kv) := by
  rw [sanitizeStep]
  cases hf : pyFloat kv.2 with
  | none => exact hacc
  | some v =>
    dsimp only
    by_cases hv : v ≤ 0
    · rw [if_pos hv]; exact hacc
    · rw [if_neg hv]
      by_cases hT : normTicker kv.1 = ""
      · rw [if_pos hT]; exact hacc
      · rw [if_neg hT]
        exact holdingsInv_addHolding acc _ v hacc (normTicker_goodKey _ hT) (by linarith)

theorem holdingsInv_foldl (raw : List (String × PyVal)) :
    ∀ acc, holdingsInv acc → holdingsInv (raw.foldl sanitizeStep acc) := by
  induction raw with
  | nil => intro acc h; exact h
  | cons kv rest ih =>
    intro acc h
    rw [List.foldl_cons]
    exact ih _ (holdingsInv_sanitizeStep acc kv h)

/-- Every entry of the sanitized holdings has a good key and a positive
value. -/
theorem sanitize_holdings_inv (raw : List (String × PyVal)) :
    holdingsInv (sanitize_holdings raw) :=
  holdingsInv_foldl raw [] (by intro kv h; simp at h)

theorem amountOf_addHolding (acc : List (String × ℚ)) (t2 : String) (v : ℚ) (t : String) :
    amountOf (addHolding acc t2 v) t = amountOf acc t + (if t2 = t then v else 0) := by
  induction acc with
  | nil =>
    simp only [addHolding, amountOf]
    split <;> ring
  | cons p rest ih =>
    obtain ⟨k, w⟩ := p
    simp only [addHolding]
    by_cases hk : k = t2
    · subst hk
      rw [if_pos rfl]
      simp only [amountOf]
      by_cases hkt : k = t
      · simp only [if_pos hkt]
      · simp only [if_neg hkt]
        ring
    · rw [if_neg hk]
      simp only [amountOf]
      by_cases hkt : k = t
      · have ht2 : ¬t2 = t := fun hc => hk (hkt.trans hc.symm)
        simp only [if_pos hkt, if_neg ht2]
        ring
      · simp only [if_neg hkt]
        exact ih

theorem amountOf_sanitizeStep (acc : List (String × ℚ)) (kv : String × PyVal)
    (t : String) (ht : t ≠ "") :
    amountOf (sanitizeStep acc kv) t = amountOf acc t + validAmount kv t := by
  rw [sanitizeStep, validAmount]
  cases hf : pyFloat kv.2 with
  | none => ring
  | some v =>
    dsimp only
    by_cases hv : v ≤ 0
    · rw [if_pos hv, if_neg]
      · ring
      · rintro ⟨h1, _⟩
        linarith
    · rw [if_neg hv]
      by_cases hT : normTicker kv.1 = ""
      · rw [if_pos hT, if_neg]
        · ring
        · rintro ⟨_, h2⟩
          exact ht (h2 ▸ hT)
      · rw [if_neg hT, amountOf_addHolding]
        by_cases hTt : normTicker kv.1 = t
        · rw [if_pos hTt, if_pos ⟨lt_of_not_le hv, hTt⟩]
        · rw [if_neg hTt, if_neg (fun hc => hTt hc.2)]

theorem amountOf_foldl (raw : List (String × PyVal)) (t : String) (ht : t ≠ "") :
    ∀ acc, amountOf (raw.foldl sanitizeStep acc) t = amountOf acc t + specSum raw t := by
  induction raw with
  | nil =>
    intro acc
    simp only [List.foldl_nil, specSum, List.map_nil, List.sum_nil]
    ring
  | cons kv rest ih =>
    intro acc
    rw [List.foldl_cons, ih, amountOf_sanitizeStep acc kv t ht]
    simp only [specSum, List.map_cons, List.sum_cons]
    ring

/-! ### Portfolio metric lemmas -/

theorem totalOf_pos (h : List (String × ℚ)) (hpos : ∀ kv ∈ h, 0 < kv.2)
    (hne : h ≠ []) : 0 < totalOf h := by
  apply List.sum_pos
  · intro x hx
    obtain ⟨kv, hkv, rfl⟩ := List.mem_map.mp hx
    exact hpos kv hkv
  · simp only [ne_eq, List.map_eq_nil]
    exact hne

theorem weightsOf_sum (h : List (String × ℚ)) (hT : totalOf h ≠ 0) :
    (weightsOf h).sum = 1 := by
  have he : weightsOf h = h.map (fun p => p.2 * (totalOf h)⁻¹) := by
    unfold weightsOf
    simp [div_eq_mul_inv]
  rw [he, List.sum_map_mul_right, mul_inv_eq_one₀ hT]
  rfl

theorem weightsOf_pos (h : List (String × ℚ)) (hpos : ∀ kv ∈ h, 0 < kv.2)
    (hne : h ≠ []) : ∀ w ∈ weightsOf h, 0 < w := by
  intro w hw
  obtain ⟨kv, hkv, rfl⟩ := List.mem_map.mp hw
  exact div_pos (hpos kv hkv) (totalOf_pos h hpos hne)

/-- For a list of non-negative terms, the sum of squares is at most the
square of the sum. -/
theorem sum_sq_le_sq_sum (l : List ℚ) (h : ∀ x ∈ l, 0 ≤ x) :
    (l.map (fun x => x ^ 2)).sum ≤ l.sum ^ 2 := by
  induction l with
  | nil => simp
  | cons a t ih =>
    rw [List.map_cons, List.sum_cons, List.sum_cons]
    have ha : 0 ≤ a := h a (List.mem_cons_self _ _)
    have ht : ∀ x ∈ t, 0 ≤ x := fun x hx => h x (List.mem_cons_of_mem _ hx)
    have hts : 0 ≤ t.sum := List.sum_nonneg ht
    have := ih ht
    nlinarith

theorem hhiOf_pos (h : List (String × ℚ)) (hpos : ∀ kv ∈ h, 0 < kv.2)
    (hne : h ≠ []) : 0 < hhiOf h := by
  apply List.sum_pos
  · intro x hx
    obtain ⟨w, hw, rfl⟩ := List.mem_map.mp hx
    exact pow_pos (weightsOf_pos h hpos hne w hw) 2
  · simp only [ne_eq, List.map_eq_nil]
    unfold weightsOf
    simp only [List.map_eq_nil]
    exact hne

theorem hhiOf_le_one (h : List (String × ℚ)) (hpos : ∀ kv ∈ h, 0 < kv.2)
    (hne : h ≠ []) : hhiOf h ≤ 1 := by
  have hw : ∀ w ∈ weightsOf h, 0 ≤ w :=
    fun w hwm => le_of_lt (weightsOf_pos h hpos hne w hwm)
  have h1 := sum_sq_le_sq_sum (weightsOf h) hw
  rw [weightsOf_sum h (ne_of_gt (totalOf_pos h hpos hne))] at h1
  unfold hhiOf
  calc ((weightsOf h).map (fun w => w ^ 2)).sum ≤ 1 ^ 2 := h1
    _ = 1 := one_pow 2

/-! ## Claim theorems -/

/-- C3: the spec requires `chunk_text` to reject `overlap ≥ chunk_size`
with an `InvalidConfiguration` error.  The source has no such guard: for
every non-empty text and every `chunk_size ≤ overlap`, the window never
advances (`start += chunk_size - overlap ≤ 0`) and the loop does not
terminate — the fuel-bounded run of the source loop returns within no
fuel budget, and no error of any kind is raised. -/
theorem chunk_text_unguarded_never_terminates (text : List Char)
    (chunk_size overlap : ℕ) (hcfg : chunk_size ≤ overlap) (hne : text ≠ []) :
    ∀ fuel : ℕ, chunk_text_fuel text chunk_size overlap fuel = none := by
  intro fuel
  apply chunkLoopFuel_none
  · omega
  · cases text with
    | nil => exact absurd rfl hne
    | cons a t => simp
  · exact le_rfl

/-- Witness for C3 at the concrete failing input `chunk_text("ab", 1, 1)`:
five loop iterations are not enough (nor is any number). -/
theorem chunk_text_unguarded_never_terminates_witness :
    chunk_text_fuel "ab".data 1 1 5 = none :=
  chunk_text_unguarded_never_terminates "ab".data 1 1 (by omega) (by decide) 5

/-- C2: the disclaimer invariant fails on the portfolio agent's
locally-recovered error path.  `PortfolioAgent._error_response` returns
the message verbatim, so the answer for a malformed-JSON request contains
zero (not exactly one) case-insensitive occurrences of "disclaimer:"
— contradicting the spec and the repository's own test
`test_portfolio_malformed_json_returns_helpful_error`. -/
theorem portfolio_error_path_misses_disclaimer :
    disclaimerCount (portfolio_error_answer portfolioParseErrorMessage) = 0 := by
  decide

/-- C4, counterexample: `search` on a never-built `VectorStore` does fail,
but with an `AttributeError` (`self.index` is `None`), not with the
`IndexNotBuilt` error the claim names — no `IndexNotBuilt` exists in the
code. -/
theorem search_unbuilt_counterexample :
    VectorStore.search (fun ts => ts.map (fun _ => ([0] : Vec))) VectorStore.init "q" 5
        = .error .attributeError
    ∧ (Except.error PyErr.attributeError : Except PyErr (List String))
        ≠ .error .indexNotBuilt :=
  ⟨rfl, fun hc => PyErr.noConfusion (Except.error.inj hc)⟩

/-- C4, amended: for every query and `top_k`, `search` on a `VectorStore`
that has never been built (the only reachable index-less state, since
`build` either raises or stores a non-empty index) fails with an
`AttributeError`. -/
theorem search_unbuilt_raises_attributeError
    (embedFn : List String → List Vec) (query : String) (top_k : ℕ) :
    VectorStore.search embedFn VectorStore.init query top_k = .error .attributeError :=
  rfl

/-- C9, counterexample: with an empty document source, `Retriever`
construction does not succeed — `VectorStore.build` evaluates
`embeddings[0]` on the empty embedding list and raises `IndexError`
inside the constructor. -/
theorem retriever_empty_corpus_counterexample :
    retriever_build (fun ts => ts.map (fun _ => ([0] : Vec))) [] = .error .indexError :=
  rfl

/-- C9, amended: for every embedding client that returns one vector per
input text (the spec's Embedding Client contract), `Retriever`
construction over an empty document source fails with an `IndexError`
raised in `VectorStore.build`; `retrieve` is never reached. -/
theorem retriever_empty_corpus_fails_indexError
    (embedFn : List String → List Vec)
    (hlen : ∀ ts, (embedFn ts).length = ts.length) :
    retriever_build embedFn [] = .error .indexError := by
  have h0 : embedFn [] = [] := by
    have := hlen []
    simp only [List.length_nil] at this
    exact List.length_eq_zero.mp this
  rw [retriever_build, List.foldl_nil, VectorStore.build, h0]

/-- Witness for C9 at a concrete length-preserving embedding client. -/
theorem retriever_empty_corpus_fails_indexError_witness :
    retriever_build (fun ts => ts.map (fun _ => ([1] : Vec))) [] = .error .indexError :=
  retriever_empty_corpus_fails_indexError _ (fun ts => by simp)

/-- C6: for every valid configuration `0 ≤ overlap < chunk_size`,
`chunk_text` returns exactly the windows
`text[s : min (s + chunk_size) len]` for `s = 0, step, 2*step, …`
(`step = chunk_size - overlap`), stopping once `s ≥ len`; empty input
yields the empty sequence; and for non-empty input the last chunk ends
exactly at `len(text)`. -/
theorem chunk_text_window_spec (text : List Char) (chunk_size overlap : ℕ)
    (h : overlap < chunk_size) :
    chunk_text text chunk_size overlap h =
      (List.range' 0 (numChunks text.length (chunk_size - overlap))
          (chunk_size - overlap)).map
        (fun s => slice text s (min (s + chunk_size) text.length))
    ∧ (text = [] → chunk_text text chunk_size overlap h = [])
    ∧ (text ≠ [] →
        (chunk_text text chunk_size overlap h).getLast? =
          some (slice text
            ((numChunks text.length (chunk_size - overlap) - 1) * (chunk_size - overlap))
            text.length)) := by
  have hstep : 0 < chunk_size - overlap := by omega
  have hmain : chunk_text text chunk_size overlap h =
      (List.range' 0 (numChunks text.length (chunk_size - overlap))
          (chunk_size - overlap)).map
        (fun s => slice text s (min (s + chunk_size) text.length)) := by
    rw [chunk_text, chunkLoop_eq]
    rw [Nat.sub_zero]
  refine ⟨hmain, ?_, ?_⟩
  · intro h0
    subst h0
    rw [hmain]
    simp [numChunks_zero]
  · intro hne
    have hl : 0 < text.length := List.length_pos.mpr hne
    have hnpos : 0 < numChunks text.length (chunk_size - overlap) :=
      numChunks_pos _ _ hstep hl
    rw [hmain]
    obtain ⟨m, hm⟩ : ∃ m, numChunks text.length (chunk_size - overlap) = m + 1 :=
      ⟨numChunks text.length (chunk_size - overlap) - 1, by omega⟩
    rw [hm, List.range'_concat, List.map_append, List.map_singleton,
      List.getLast?_concat]
    have hcover := numChunks_mul_ge text.length (chunk_size - overlap) hstep
    rw [hm] at hcover
    have hms : (m + 1) * (chunk_size - overlap)
        = m * (chunk_size - overlap) + (chunk_size - overlap) := by ring
    have hle : text.length ≤ 0 + (chunk_size - overlap) * m + chunk_size := by
      rw [Nat.mul_comm (chunk_size - overlap) m]
      omega
    rw [Nat.min_eq_right hle]
    have hidx : 0 + (chunk_size - overlap) * m = (m + 1 - 1) * (chunk_size - overlap) := by
      rw [Nat.add_sub_cancel, Nat.zero_add, Nat.mul_comm]
    rw [hidx]

/-- Witness for C6 at `chunk_text("abcdef", 3, 1)`: the windows are
`"abc"`, `"cde"`, `"ef"`. -/
theorem chunk_text_window_spec_witness :
    chunk_text "abcdef".data 3 1 (by omega) = ["abc".data, "cde".data, "ef".data] :=
  ((chunk_text_window_spec "abcdef".data 3 1 (by omega)).1).trans (by decide)

/-- C1: on every validated goal request (`target > 0`, `years > 0`,
`0 ≤ annual_return_decimal < 1`, `current_savings ≥ 0`) the goal solver
computes `months = max(1, round(years * 12))`,
`monthly_rate = annual_return_decimal / 12`,
`fv_of_current_savings = current_savings * (1 + monthly_rate) ^ months`,
`fv_needed = target_amount - fv_of_current_savings`, and the returned
contribution follows the three-case formula and is never negative (the
`max(0.0, ·)` floor never changes the case value). -/
theorem goal_solver_formula (target years annual pv : ℚ) (res : GoalResult)
    (htarget : 0 < target) (hyears : 0 < years) (hannual0 : 0 ≤ annual)
    (hannual1 : annual < 1) (hpv : 0 ≤ pv)
    (hres : res = compute_monthly_contribution target years annual pv) :
    ((res.months : ℤ) = max 1 (pyRound (years * 12)))
    ∧ res.monthly_rate = annual / 12
    ∧ res.fv_of_current_savings = pv * (1 + res.monthly_rate) ^ res.months
    ∧ res.fv_needed = target - res.fv_of_current_savings
    ∧ res.monthly_contribution =
        (if res.fv_needed ≤ 0 then 0
         else if res.monthly_rate = 0 then res.fv_needed / (res.months : ℚ)
         else res.fv_needed /
            (((1 + res.monthly_rate) ^ res.months - 1) / res.monthly_rate))
    ∧ 0 ≤ res.monthly_contribution := by
  subst hres
  have hM1 : 1 ≤ (max 1 (pyRound (years * 12))).toNat := by omega
  have hnn : 0 ≤
      (if target - pv * (1 + annual / 12) ^ (max 1 (pyRound (years * 12))).toNat ≤ 0 then 0
       else if annual / 12 = 0 then
         (target - pv * (1 + annual / 12) ^ (max 1 (pyRound (years * 12))).toNat)
           / (((max 1 (pyRound (years * 12))).toNat : ℕ) : ℚ)
       else (target - pv * (1 + annual / 12) ^ (max 1 (pyRound (years * 12))).toNat)
           / (((1 + annual / 12) ^ (max 1 (pyRound (years * 12))).toNat - 1)
              / (annual / 12))) := by
    split_ifs with h1 h2
    · exact le_refl 0
    · apply le_of_lt
      apply div_pos (by linarith)
      exact_mod_cast Nat.lt_of_lt_of_le Nat.zero_lt_one hM1
    · have hi : 0 < annual / 12 :=
        lt_of_le_of_ne (div_nonneg hannual0 (by norm_num)) (Ne.symm h2)
      have hg : 1 < (1 + annual / 12) ^ (max 1 (pyRound (years * 12))).toNat :=
        one_lt_pow (by linarith) (by omega)
      apply le_of_lt
      apply div_pos (by linarith)
      exact div_pos (by linarith) hi
  refine ⟨?_, rfl, rfl, rfl, ?_, ?_⟩
  · show (((max 1 (pyRound (years * 12))).toNat : ℕ) : ℤ) = max 1 (pyRound (years * 12))
    omega
  · exact max_eq_right hnn
  · exact le_max_left 0 _

/-- Witness for C1 at the concrete validated request
`target = 100, years = 1, return = 0, savings = 0`. -/
theorem goal_solver_formula_witness :
    0 ≤ (compute_monthly_contribution 100 1 0 0).monthly_contribution :=
  (goal_solver_formula 100 1 0 0 _ (by norm_num) (by norm_num) (le_refl 0)
    (by norm_num) (le_refl 0) rfl).2.2.2.2.2

/-- C5 (faiss semantics modelled from the spec): on a built index over N
vectors, `search(q, top_k)` succeeds and returns the chunk texts at the
selected indices; there are exactly `min top_k N` of them; the selection
is ordered by non-decreasing (squared) L2 distance to the query with ties
broken by insertion order; and when `top_k ≥ N` the result is a
permutation of all N stored chunk texts — no error. -/
theorem search_topk_ordered (embedFn : List String → List Vec) (vs : VectorStore)
    (vecs : List Vec) (query : String) (top_k : ℕ)
    (hidx : vs.index = some vecs) (hlen : vecs.length = vs.text_chunks.length) :
    vs.search embedFn query top_k =
        .ok ((nnIndices vecs ((embedFn [query]).getD 0 []) top_k).map
          (fun i => vs.text_chunks.getD i ""))
    ∧ (nnIndices vecs ((embedFn [query]).getD 0 []) top_k).length = min top_k vecs.length
    ∧ (nnIndices vecs ((embedFn [query]).getD 0 []) top_k).Pairwise (fun i j =>
        l2sq ((embedFn [query]).getD 0 []) (vecs.getD i []) <
            l2sq ((embedFn [query]).getD 0 []) (vecs.getD j []) ∨
          (l2sq ((embedFn [query]).getD 0 []) (vecs.getD i []) =
              l2sq ((embedFn [query]).getD 0 []) (vecs.getD j []) ∧ i < j))
    ∧ (vecs.length ≤ top_k →
        ((nnIndices vecs ((embedFn [query]).getD 0 []) top_k).map
          (fun i => vs.text_chunks.getD i "")).Perm vs.text_chunks) := by
  refine ⟨search_built embedFn vs vecs query top_k hidx, nnIndices_length _ _ _,
    nnIndices_sorted _ _ _, ?_⟩
  intro hk
  have hperm := (nnIndices_all vecs ((embedFn [query]).getD 0 []) top_k hk).map
    (fun i => vs.text_chunks.getD i "")
  have heq : (List.range vecs.length).map (fun i => vs.text_chunks.getD i "")
      = vs.text_chunks := by
    rw [hlen]
    exact map_getD_range _ _
  rw [heq] at hperm
  exact hperm

/-- Witness for C5 on a concrete two-vector store with `top_k = 5`. -/
theorem search_topk_ordered_witness :
    (nnIndices [[0], [1]]
        (((fun ts : List String => ts.map (fun _ => ([0] : Vec))) ["q"]).getD 0 []) 5).length
      = min 5 ([[0], [1]] : List Vec).length :=
  (search_topk_ordered (fun ts : List String => ts.map (fun _ => ([0] : Vec)))
    { index := some [[0], [1]], text_chunks := ["a", "b"] } [[0], [1]] "q" 5 rfl rfl).2.1

/-- C7: sanitization coerces each value, drops failed coercions and
non-positive values, normalizes (uppercases/trims) the ticker, drops
empty keys and sums duplicates — for every normalized ticker, the
sanitized amount is the sum of the valid contributions; and the spec's
concrete example normalizes as stated. -/
theorem sanitize_holdings_spec :
    (∀ (raw : List (String × PyVal)) (t : String), t ≠ "" →
        amountOf (sanitize_holdings raw) t = specSum raw t)
    ∧ sanitize_holdings
        [("aapl", .str "1000"), (" AAPL ", .num 500), ("VTI", .num 2000),
         ("BND", .num (-100)), ("BAD", .str "x"), ("", .num 200)]
      = [("AAPL", 1500), ("VTI", 2000)] := by
  constructor
  · intro raw t ht
    rw [sanitize_holdings, amountOf_foldl raw t ht []]
    simp [amountOf]
  · decide

/-- Witness for C7 at a one-entry input with a numeric-string value. -/
theorem sanitize_holdings_spec_witness :
    amountOf (sanitize_holdings [("aapl", PyVal.str "1000")]) "AAPL"
      = specSum [("aapl", PyVal.str "1000")] "AAPL" :=
  sanitize_holdings_spec.1 [("aapl", PyVal.str "1000")] "AAPL" (by decide)

/-- C8: on every non-empty holdings map, the final risk label equals the
more severe of the ordered concentration band and the asset-mix band
(severity order low < medium < high). -/
theorem risk_label_spec (holdings : List (String × ℚ)) (hne : holdings ≠ []) :
    computeRisk holdings =
      moreSevere
        (concentrationRisk holdings.length (topWeightOf holdings) (hhiOf holdings))
        (assetRisk (stockPctOf holdings)) := by
  show (if severity (assetRisk (stockPctOf holdings))
          > severity (concentrationRisk holdings.length (topWeightOf holdings)
              (hhiOf holdings))
        then assetRisk (stockPctOf holdings)
        else concentrationRisk holdings.length (topWeightOf holdings) (hhiOf holdings))
      = moreSevere
          (concentrationRisk holdings.length (topWeightOf holdings) (hhiOf holdings))
          (assetRisk (stockPctOf holdings))
  generalize concentrationRisk holdings.length (topWeightOf holdings) (hhiOf holdings) = r
  generalize assetRisk (stockPctOf holdings) = a
  cases r <;> cases a <;> rfl

/-- Witness for C8 at the single-stock portfolio `{"AAPL": 1}`. -/
theorem risk_label_spec_witness :
    computeRisk [("AAPL", (1 : ℚ))] =
      moreSevere
        (concentrationRisk ([("AAPL", (1 : ℚ))] : List (String × ℚ)).length
          (topWeightOf [("AAPL", (1 : ℚ))]) (hhiOf [("AAPL", (1 : ℚ))]))
        (assetRisk (stockPctOf [("AAPL", (1 : ℚ))])) :=
  risk_label_spec [("AAPL", (1 : ℚ))] (by decide)

/-- C10: every sanitized entry has a non-empty, upper-case, trimmed key
and a positive value; hence over a non-empty sanitized map the total is
positive, the weights sum to exactly 1, and the HHI lies in (0, 1]. -/
theorem sanitize_invariants (raw : List (String × PyVal)) :
    (∀ kv ∈ sanitize_holdings raw, goodKey kv.1 ∧ 0 < kv.2)
    ∧ (sanitize_holdings raw ≠ [] →
        0 < totalOf (sanitize_holdings raw)
        ∧ (weightsOf (sanitize_holdings raw)).sum = 1
        ∧ 0 < hhiOf (sanitize_holdings raw)
        ∧ hhiOf (sanitize_holdings raw) ≤ 1) := by
  have hinv := sanitize_holdings_inv raw
  refine ⟨hinv, ?_⟩
  intro hne
  have hpos : ∀ kv ∈ sanitize_holdings raw, 0 < kv.2 := fun kv h => (hinv kv h).2
  have hT := totalOf_pos _ hpos hne
  exact ⟨hT, weightsOf_sum _ (ne_of_gt hT), hhiOf_pos _ hpos hne,
    hhiOf_le_one _ hpos hne⟩

/-- Witness for C10 at the one-entry input `{"vti": 1000}`. -/
theorem sanitize_invariants_witness :
    0 < totalOf (sanitize_holdings [("vti", PyVal.num 1000)]) :=
  ((sanitize_invariants [("vti", PyVal.num 1000)]).2 (by decide)).1

end RatKernelEval

end FinAssist
